import Mathlib

/-!
Shallow embedding of the tev2-tools terminology pipeline.

The definitions below translate, function by function, the core logic of:
* `src/src/Resolver.ts` — the term-reference resolver (splice loop with
  cumulative offset bookkeeping, front-matter match dropping, output-file
  writing),
* the TuC builder (`TuC.addMrgEntry`, `TuC.removeMrgEntry`, the
  constructor's `scopes` fixup),
* `mrg-import/src/Interpreter.ts` — the per-version file duplication of
  the MRG import tool,
* `trrt/src/Interpreter.ts` — term-reference decoding (id slugification).

Text is modelled as `List Char`; JavaScript `string.substring` clamping is
modelled with `Int.toNat`.  Entries are records with a fixed set of
well-known fields plus an open `String → FieldValue` association list,
mirroring the loosely typed entry records of the source.
-/

namespace Tev2

/-- JS `text.substring(0, i)` on a char list: negative `i` clamps to `0`,
overlong `i` clamps to the length. -/
def jsTake (l : List Char) (i : Int) : List Char := l.take i.toNat

/-- JS `text.substring(i)` on a char list, with the same clamping. -/
def jsDrop (l : List Char) (i : Int) : List Char := l.drop i.toNat

/-- One raw scan match together with its rendered replacement:
`(match.index, match[0].length, replacement characters)`. -/
abbrev RMatch := Nat × Nat × List Char

/-- The replacement loop of `Resolver.interpretAndConvert`
(src/src/Resolver.ts lines 88-177): state is the evolving text,
the cumulative `lastIndex` delta, and the `converted` counter.  A match
whose replacement is empty is skipped; otherwise the replacement is
spliced at `match.index + lastIndex` and `lastIndex` is advanced by
`replacement.length - match.length`. -/
def interpretLoop : List Char → Int → Nat → List RMatch → List Char × Int × Nat
  | text, lastIndex, conv, [] => (text, lastIndex, conv)
  | text, lastIndex, conv, (idx, len, repl) :: rest =>
    if 0 < repl.length then
      interpretLoop
        (jsTake text ((idx : Int) + lastIndex) ++ repl
          ++ jsDrop text ((idx : Int) + lastIndex + (len : Int)))
        (lastIndex + (repl.length : Int) - (len : Int))
        (conv + 1) rest
    else
      interpretLoop text lastIndex conv rest

/-- Plain sequential left-to-right substitution on the original text:
each match's span is replaced by its replacement, reading the original
text between the spans. -/
def assemble (text : List Char) : Nat → List RMatch → List Char
  | pos, [] => text.drop pos
  | pos, (idx, len, repl) :: rest =>
    ((text.drop pos).take (idx - pos)) ++ repl ++ assemble text (idx + len) rest

/-- The matches are in document order, non-overlapping, and within a text
of length `n`, starting at or after `pos`. -/
def orderedFrom (n : Nat) : Nat → List (Nat × Nat × α) → Bool
  | _, [] => true
  | pos, (idx, len, _) :: rest =>
    decide (pos ≤ idx) && decide (idx + len ≤ n) && orderedFrom n (idx + len) rest

/-- Every match's rendered replacement is non-empty. -/
def allRepl (ms : List RMatch) : Bool := ms.all (fun m => decide (0 < m.2.2.length))

/-- Total length delta over a match list. -/
def listDelta : List RMatch → Int
  | [] => 0
  | (_, len, repl) :: rest => ((repl.length : Int) - (len : Int)) + listDelta rest

/-- A value of a loosely typed entry field: a string, a list of strings,
or YAML `null`. -/
inductive FieldValue where
  | str (s : String)
  | vlist (l : List String)
  | null
deriving DecidableEq, Repr

/-- An MRG entry: the well-known fields plus an open association list of
further fields. -/
structure Entry where
  term : String
  altterms : List String := []
  scopetag : String := ""
  source : String := ""
  fields : List (String × FieldValue) := []
deriving DecidableEq, Repr

/-- Dynamic field access `entry[key]` on an `Entry`; `none` models
JS `undefined`. -/
def fieldOf (e : Entry) (k : String) : Option FieldValue :=
  if k == "term" then some (.str e.term)
  else if k == "altterms" then some (.vlist e.altterms)
  else if k == "scopetag" then some (.str e.scopetag)
  else if k == "source" then some (.str e.source)
  else (e.fields.find? (fun p => p.1 == k)).map (fun p => p.2)

/-- The merge of one selected entry into the accumulating TuC entry list
(`TuC.addMrgEntry`, part_001 lines 325-334): `findIndex` on `term`, then
replace in place, else push. -/
def insertEntry : List Entry → Entry → List Entry
  | [], new => [new]
  | e :: rest, new =>
    if e.term == new.term then new :: rest else e :: insertEntry rest new

/-- Sequential merge of all entries selected by the add instructions. -/
def addEntries (l : List Entry) (news : List Entry) : List Entry :=
  news.foldl insertEntry l

/-- The last entry with term `t` in an addition sequence, if any. -/
def lastAdded (t : String) : List Entry → Option Entry
  | [] => none
  | e :: rest =>
    match lastAdded t rest with
    | some x => some x
    | none => if e.term == t then some e else none

/-- The inner `for (const value of valuelist)` loop of the
`removeMrgEntry` filter callback (part_001 lines 395-409).  `some b`
means the callback returns `b` (keep/discard); `none` models the
TypeError thrown by `null.includes(...)` on a null-valued field. -/
def removeLoop (v : FieldValue) : List String → Option Bool
  | [] => some true
  | value :: rest =>
    match v with
    | .str s => if s == value then some false else removeLoop (.str s) rest
    | .vlist l => if l.contains value then some true else removeLoop (.vlist l) rest
    | .null => none

/-- The full `removeMrgEntry` filter callback (part_001 lines 384-412)
for one entry: `some true` keeps the entry, `some false` removes it,
`none` models a thrown TypeError. -/
def removeEval (key : String) (vl : Option (List String)) (e : Entry) : Option Bool :=
  match fieldOf e key with
  | none => some true
  | some v =>
    match vl with
    | none => if v = .str "" ∨ v = .null then some false else some true
    | some values => removeLoop v values

/-- `TuC.removeMrgEntry` applied to the accumulated entry list: the JS
`Array.filter` either completes (no callback threw) and its result is
assigned, or a callback throws, the `try`/`catch` logs the error, and the
entry list is left unchanged. -/
def removeMrgEntry (key : String) (vl : Option (List String)) (entries : List Entry) : List Entry :=
  if entries.all (fun e => (removeEval key vl e).isSome) then
    entries.filter (fun e => (removeEval key vl e).getD true)
  else
    entries

/-- JS falsiness of `termProperties.get(...)`: `undefined` or the empty
string. -/
def falsyS (o : Option String) : Bool :=
  match o with
  | none => true
  | some s => s == ""

/-- Scopetag defaulting (src/src/Resolver.ts lines 96-98): an empty
scopetag is set to the SAF's scopetag. -/
def resolvedScopetag (st0 : Option String) (safTag : String) : String :=
  if falsyS st0 then safTag else st0.getD ""

/-- Vsntag defaulting (src/src/Resolver.ts lines 101-103): an empty
vsntag is set to the SAF's defaultvsn exactly when the (already
defaulted) scopetag equals the SAF's scopetag. -/
def resolvedVsntag (st0 vt0 : Option String) (safTag dflt : String) : Option String :=
  if resolvedScopetag st0 safTag == safTag && falsyS vt0 then some dflt else vt0

/-- MRG filename selection (src/src/Resolver.ts lines 105-107): the
version-suffixed name when a vsntag is (now) present, the unsuffixed
name otherwise. -/
def resolvedMrgFile (st0 vt0 : Option String) (safTag dflt : String) : String :=
  if falsyS (resolvedVsntag st0 vt0 safTag dflt) then
    "mrg." ++ resolvedScopetag st0 safTag ++ ".yaml"
  else
    "mrg." ++ resolvedScopetag st0 safTag ++ "."
      ++ (resolvedVsntag st0 vt0 safTag dflt).getD "" ++ ".yaml"

/-- The scopetag/vsntag defaulting and MRG-filename selection of
`Resolver.interpretAndConvert` (src/src/Resolver.ts lines 95-107). -/
def resolveRefTags (st0 vt0 : Option String) (safTag dflt : String) :
    String × Option String × String :=
  (resolvedScopetag st0 safTag, resolvedVsntag st0 vt0 safTag dflt,
    resolvedMrgFile st0 vt0 safTag dflt)

/-- One cell sweep of the Levenshtein dynamic-programming row: `diag`
is the previous row's entry one position back, `left` the entry just
computed in the new row, and `prs` the tail of the previous row aligned
with the remaining `ys`. -/
def nextRowGo (x : Char) : List Char → List Nat → Nat → Nat → List Nat
  | [], _, _, _ => []
  | _ :: _, [], _, _ => []
  | y :: ys, pr :: prs, diag, left =>
    (min (left + 1) (min (pr + 1) (diag + (if x == y then 0 else 1))))
      :: nextRowGo x ys prs pr (min (left + 1) (min (pr + 1) (diag + (if x == y then 0 else 1))))

/-- The Levenshtein dynamic-programming row update for one character of
the first string. -/
def nextRow (x : Char) (ys : List Char) (prev : List Nat) : List Nat :=
  match prev with
  | [] => []
  | p0 :: prs => (p0 + 1) :: nextRowGo x ys prs p0 (p0 + 1)

/-- Levenshtein edit distance between two character lists (row-based
dynamic programming). -/
def levenshtein (xs ys : List Char) : Nat :=
  (xs.foldl (fun row x => nextRow x ys row) (List.range (ys.length + 1))).getLastD 0

/-- Modelled from the spec: an "edit-distance-based similarity metric"
between two strings, as a percentage (the spec leaves the exact
normalisation implementation-defined). -/
def similarity (a b : String) : Nat :=
  let m := max a.data.length b.data.length
  if m = 0 then 100 else (m - levenshtein a.data b.data) * 100 / m

/-- Modelled from the spec: the best similarity score of one reference
property against every entry of the active registry. -/
def bestScoreBy (f : Entry → String) (v : String) (es : List Entry) : Nat :=
  es.foldl (fun acc e => max acc (similarity v (f e))) 0

/-- Modelled from the spec: the entry whose `term` best matches the
reference's term (first of equals wins). -/
def bestTermEntry (v : String) (es : List Entry) : Option Entry :=
  es.foldl
    (fun best e =>
      match best with
      | none => some e
      | some b => if similarity v b.term < similarity v e.term then some e else some b)
    none

/-- Modelled from the spec: the fixed fuzzy-suggestion threshold. -/
def fuzzyThreshold : Nat := 75

/-- Modelled from the spec: the average of the three best-per-property
scores for `{term, scopetag, vsntag}`; the vsntag of the active registry
plays the entry-side role for the `vsntag` property. -/
def fuzzyAvg (termV scopeV vsnV mrgVsn : String) (es : List Entry) : Nat :=
  (bestScoreBy (fun e => e.term) termV es
    + bestScoreBy (fun e => e.scopetag) scopeV es
    + bestScoreBy (fun _ => mrgVsn) vsnV es) / 3

/-- The full reference of an entry, `term@scopetag:vsntag`. -/
def fullRef (e : Entry) (vsn : String) : String :=
  e.term ++ "@" ++ e.scopetag ++ ":" ++ vsn

/-- The diagnostic reported for a term reference with zero matching
entries. -/
inductive NoMatchDiag where
  | suggestion (ref : String)
  | plain (ref : String)
deriving DecidableEq, Repr

/-- Modelled from the spec: the zero-match diagnostic of the resolver.
The fuzzy branch is absent from the sources under `src/` (only its
caller `trrt/src/Run.ts` is present); per the spec, when the averaged
best-per-property score exceeds the threshold the diagnostic suggests
the best-term-matching entry's full reference, otherwise it is the plain
no-match diagnostic carrying the decoded reference. -/
def noMatchOutcome (termV scopeV vsnV mrgVsn : String) (es : List Entry) : NoMatchDiag :=
  let refT := termV ++ "@" ++ scopeV ++ ":" ++ vsnV
  if fuzzyThreshold < fuzzyAvg termV scopeV vsnV mrgVsn es then
    match bestTermEntry termV es with
    | some e => .suggestion (fullRef e mrgVsn)
    | none => .plain refT
  else
    .plain refT

/-- The entry filter of `Resolver.interpretAndConvert`
(src/src/Resolver.ts lines 131-134): exact `term` match or membership
in `altterms`. -/
def matchingEntries (es : List Entry) (t : String) : List Entry :=
  es.filter (fun e => e.term == t || e.altterms.contains t)

/-- The distinct `source` values of a list of conflicting entries
(src/src/Resolver.ts lines 149-153), in first-seen order. -/
def uniqueSources (ms : List Entry) : List String :=
  ms.foldl (fun acc e => if acc.contains e.source then acc else acc ++ [e.source]) []

/-- The per-match outcome of the resolver's disambiguation
(src/src/Resolver.ts lines 124-157). -/
inductive StepOut where
  | splice (r : String)
  | keepEmptyRender (ref : String)
  | keepMulti (sources : List String)
  | keepNoMatch (d : NoMatchDiag)
deriving DecidableEq, Repr

/-- One match's resolution against a non-empty registry: exactly one
matching entry is converted and spliced (unless the rendering is empty);
several matching entries yield a multi-match diagnostic; zero matching
entries yield the zero-match diagnostic.  `conv` is the pluggable
rendering function. -/
def resolveStep (es : List Entry) (mrgVsn termV scopeV vsnV : String)
    (conv : Entry → String) : StepOut :=
  match matchingEntries es termV with
  | [] => .keepNoMatch (noMatchOutcome termV scopeV vsnV mrgVsn es)
  | [e] =>
    if conv e == "" then .keepEmptyRender (termV ++ "@" ++ scopeV ++ ":" ++ vsnV)
    else .splice (conv e)
  | l => .keepMulti (uniqueSources l)

/-- The `altvsntags` field of a SAF version as parsed from YAML:
absent, a single string, or a list of strings
(mrg-import/src/Interpreter.ts handles all three). -/
inductive AltVsn where
  | undef
  | one (s : String)
  | many (l : List String)
deriving DecidableEq, Repr

/-- `needle` occurs at the head of `hay`. -/
def leadsWith : List Char → List Char → Bool
  | [], _ => true
  | _ :: _, [] => false
  | a :: as, b :: bs => a == b && leadsWith as bs

/-- JS `String.prototype.includes`: substring containment. -/
def hasSub (needle : List Char) : List Char → Bool
  | [] => leadsWith needle []
  | c :: t => leadsWith needle (c :: t) || hasSub needle t

/-- `version.altvsntags?.includes(importSaf.scope.defaultvsn)` as
evaluated at mrg-import/src/Interpreter.ts line 84, before the
string-to-array normalisation of line 91: on a single string this is JS
substring containment, on an array it is membership, on `undefined` it
is falsy. -/
def jsIncludesAlt (a : AltVsn) (d : String) : Bool :=
  match a with
  | .undef => false
  | .one s => hasSub d.data s.data
  | .many l => l.contains d

/-- The string-to-array normalisation of `version.altvsntags`
(mrg-import/src/Interpreter.ts lines 91-93), followed by the `forEach`
over the result. -/
def normalizeAlt : AltVsn → List String
  | .undef => []
  | .one s => [s]
  | .many l => l

/-- The MRG naming convention: `mrg.<scopetag>.<vsntag>.yaml`, or the
unsuffixed `mrg.<scopetag>.yaml` default-version alias. -/
def mrgFileName (tag : String) (v : Option String) : String :=
  match v with
  | none => "mrg." ++ tag ++ ".yaml"
  | some s => "mrg." ++ tag ++ "." ++ s ++ ".yaml"

/-- The files written for one successfully fetched imported version
(mrg-import/src/Interpreter.ts lines 73-98): the canonical file, then
the unsuffixed default alias when `vsntag === defaultvsn` or
`altvsntags?.includes(defaultvsn)`, then one alias per (normalised)
altvsntag — all with the same serialized `mrgdump` content. -/
def importVersionWrites (tag vsntag : String) (alts : AltVsn) (dflt : String)
    (content : String) : List (String × String) :=
  [(mrgFileName tag (some vsntag), content)]
    ++ (if vsntag == dflt || jsIncludesAlt alts dflt then
          [(mrgFileName tag none, content)]
        else [])
    ++ (normalizeAlt alts).map (fun a => (mrgFileName tag (some a), content))

/-- The apostrophe character. -/
def apos : Char := Char.ofNat 39

/-- A character deleted by the first slugification pass,
`replace(/['()]+/g, "")`. -/
def isStrippedChar (c : Char) : Bool :=
  c == apos || c == '(' || c == ')'

/-- A character kept verbatim by the second slugification pass,
i.e. one matching `[a-z0-9_-]`. -/
def allowedChar (c : Char) : Bool :=
  (decide ('a' ≤ c) && decide (c ≤ 'z'))
    || (decide ('0' ≤ c) && decide (c ≤ '9'))
    || c == '_' || c == '-'

/-- The second slugification pass, `replace(/[^a-z0-9_-]+/g, "-")`, as a
two-state scan: the flag records whether we are inside a run of
disallowed characters (whose first character already emitted the
hyphen). -/
def collapseGo (q : Char → Bool) : Bool → List Char → List Char
  | _, [] => []
  | inRun, c :: cs =>
    if q c then c :: collapseGo q false cs
    else if inRun then collapseGo q true cs
    else '-' :: collapseGo q true cs

/-- The id slugification of `Interpreter.interpret`
(trrt/src/Interpreter.ts line 54):
`showtext.toLowerCase().replace(/['()]+/g, "").replace(/[^a-z0-9_-]+/g, "-")`. -/
def slugify (s : String) : String :=
  ⟨collapseGo allowedChar false ((s.data.map Char.toLower).filter (fun c => ! isStrippedChar c))⟩

/-- The id defaulting of `Interpreter.interpret`
(trrt/src/Interpreter.ts line 54): a non-empty `id` capture group is
taken verbatim, otherwise the slugified showtext is used. -/
def interpretId (idg : Option String) (showtext : String) : String :=
  match idg with
  | some s => if 0 < s.length then s else slugify showtext
  | none => slugify showtext

/-- Run collapsing stated the way the spec words it: each maximal run of
characters failing `q` becomes a single hyphen. -/
def specCollapse (q : Char → Bool) : List Char → List Char
  | [] => []
  | c :: cs =>
    if q c then c :: specCollapse q cs
    else '-' :: specCollapse q (cs.dropWhile (fun d => ! q d))
termination_by l => l.length
decreasing_by
  · simp only [List.length_cons]
    omega
  · simp only [List.length_cons, Nat.lt_succ_iff]
    exact (List.dropWhile_sublist _).length_le

/-- The slug as the spec describes it: lowercase, delete every
apostrophe and parenthesis, collapse every maximal run of characters
outside `[a-z0-9_-]` to a single hyphen. -/
def specSlug (s : String) : String :=
  ⟨specCollapse allowedChar ((s.data.map Char.toLower).filter (fun c => ! isStrippedChar c))⟩

/-- An abstract file system state: the set of existing directories and a
path-to-content map for existing files. -/
structure FileSys where
  dirs : List String
  files : List (String × String)
deriving DecidableEq, Repr

/-- The outcome of one `Resolver.writeFile` call: the new file system,
whether the E013 already-exists error was logged, and whether a
file-written event was recorded. -/
structure WriteOut where
  fsys : FileSys
  errorE013 : Bool
  written : Bool
deriving DecidableEq, Repr

/-- `path.join(dirPath, file)`. -/
def pathJoin (d f : String) : String := d ++ "/" ++ f

/-- Store `data` at path `p`, overwriting any previous content. -/
def putFile (fs : FileSys) (p data : String) : FileSys :=
  { fs with files := fs.files.filter (fun q => ! (q.1 == p)) ++ [(p, data)] }

/-- Content of the file at `p`, if it exists. -/
def readFileAt (fs : FileSys) (p : String) : Option String :=
  (fs.files.find? (fun q => q.1 == p)).map (fun q => q.2)

/-- `Resolver.writeFile` (src/src/Resolver.ts lines 44-69): create the
directory tree when missing, refuse to overwrite an existing file
without `force` (logging E013 and skipping the write), otherwise write
the data and record a file-written event. -/
def writeFileModel (fs : FileSys) (dirPath fileN data : String) (force : Bool) : WriteOut :=
  if ! fs.dirs.contains dirPath then
    { fsys := putFile { fs with dirs := fs.dirs ++ [dirPath] } (pathJoin dirPath fileN) data,
      errorE013 := false, written := true }
  else if ! force && fs.files.any (fun q => q.1 == pathJoin dirPath fileN) then
    { fsys := fs, errorE013 := true, written := false }
  else
    { fsys := putFile fs (pathJoin dirPath fileN) data,
      errorE013 := false, written := true }

/-- One element of a Terminology's `scopes` set (or of the SAF's import
list): a scopetag and its scopedir. -/
structure ScopeRec where
  scopetag : String
  scopedir : String
deriving DecidableEq, Repr

/-- `generator.saf.scopes?.find(...)`: lookup of an import scope by
scopetag in the SAF administration. -/
def safFind (saf : List ScopeRec) (tag : String) : Option ScopeRec :=
  saf.find? (fun s => s.scopetag == tag)

/-- The `scopes` fixup loop of the TuC constructor (part_001 lines
112-128): iterate the scopes in insertion order; an element whose
scopetag still occurs more than once in the current set is deleted; a
surviving element has its scopedir set from the SAF, or is deleted when
the SAF does not know its scopetag.  `visited` holds the survivors so
far. -/
def scopesFixup (saf : List ScopeRec) : List ScopeRec → List ScopeRec → List ScopeRec
  | visited, [] => visited
  | visited, x :: rest =>
    if 1 < ((visited ++ x :: rest).filter (fun s => s.scopetag == x.scopetag)).length then
      scopesFixup saf visited rest
    else
      match safFind saf x.scopetag with
      | some sa => scopesFixup saf (visited ++ [{ scopetag := x.scopetag, scopedir := sa.scopedir }]) rest
      | none => scopesFixup saf visited rest

/-- The constructor's finishing step on a terminology under
construction: the entry list is untouched and the `scopes` set is
deduplicated and validated against the SAF. -/
def tucFinalize (saf : List ScopeRec) (entries : List Entry) (scopes : List ScopeRec) :
    List Entry × List ScopeRec :=
  (entries, scopesFixup saf [] scopes)

/-- The scopetags of a scope list. -/
def tagsOf (l : List ScopeRec) : List String := l.map (fun s => s.scopetag)

/-- Left-to-right non-overlapping scan of a literal pattern, as
`matchAll` performs for a custom pattern that is a literal string: at a
match the scan resumes after the match, otherwise it advances one
character.  The fuel argument (instantiated with the text length, which
bounds the number of steps) makes the recursion structural. -/
def scanGo (p : List Char) : Nat → List Char → Nat → List (Nat × Nat)
  | 0, _, _ => []
  | _ + 1, [], _ => []
  | fuel + 1, c :: cs, i =>
    if leadsWith p (c :: cs) && decide (0 < p.length) then
      (i, p.length) :: scanGo p fuel ((c :: cs).drop p.length) (i + p.length)
    else
      scanGo p fuel cs (i + 1)

/-- All matches of a literal pattern in a text, with byte offsets. -/
def scanAll (p text : List Char) : List (Nat × Nat) := scanGo p text.length text 0

/-- `Resolver.interpretAndConvert` (src/src/Resolver.ts lines 78-183)
for a file with front matter, with resolution abstracted into `rfn`
(the replacement produced for the match at a given index and length;
empty when the match does not resolve): scan the whole original text,
drop the first `k` matches where `k` is the number of matches of the
same pattern in the front-matter text, then run the splice loop. -/
def resolveFileModel (p matter orig : List Char) (rfn : Nat → Nat → List Char) : List Char :=
  (interpretLoop orig 0 0
    (((scanAll p orig).drop (scanAll p matter).length).map
      (fun m => (m.1, m.2, rfn m.1 m.2)))).1

/-! ### Splice-loop correctness (Resolver.interpretAndConvert) -/

theorem jsTake_append_exact (P D : List Char) (k : Nat) :
    jsTake (P ++ D) ((P.length : Int) + (k : Int)) = P ++ D.take k := by
  unfold jsTake
  have h : ((P.length : Int) + (k : Int)).toNat = P.length + k := by omega
  rw [h, List.take_append_eq_append_take, List.take_of_length_le (by omega)]
  congr 1
  congr 1
  omega

theorem jsDrop_append_exact (P D : List Char) (k : Nat) :
    jsDrop (P ++ D) ((P.length : Int) + (k : Int)) = D.drop k := by
  unfold jsDrop
  have h : ((P.length : Int) + (k : Int)).toNat = P.length + k := by omega
  rw [h, List.drop_append_eq_append_drop, List.drop_eq_nil_of_le (by omega)]
  simp

theorem interpretLoop_assemble (ms : List RMatch) :
    ∀ (pos : Nat) (P text : List Char) (li : Int) (conv : Nat),
      li = (P.length : Int) - (pos : Int) →
      orderedFrom text.length pos ms = true →
      allRepl ms = true →
      interpretLoop (P ++ text.drop pos) li conv ms =
        (P ++ assemble text pos ms, li + listDelta ms, conv + ms.length) := by
  induction ms with
  | nil =>
    intro pos P text li conv hli _ _
    simp [interpretLoop, assemble, listDelta]
  | cons m rest ih =>
    obtain ⟨idx, len, repl⟩ := m
    intro pos P text li conv hli hord hrep
    simp only [orderedFrom, Bool.and_eq_true, decide_eq_true_eq] at hord
    obtain ⟨⟨hp, hb⟩, hord'⟩ := hord
    simp only [allRepl, List.all_cons, Bool.and_eq_true, decide_eq_true_eq] at hrep
    obtain ⟨hr, hrep'⟩ := hrep
    have hrep'' : allRepl rest = true := by simpa [allRepl] using hrep'
    have harg1 : (idx : Int) + li = (P.length : Int) + ((idx - pos : Nat) : Int) := by
      omega
    have harg2 : (P.length : Int) + ((idx - pos : Nat) : Int) + (len : Int)
        = (P.length : Int) + (((idx - pos) + len : Nat) : Int) := by
      push_cast
      ring
    have hdd : (text.drop pos).drop (idx - pos + len) = text.drop (idx + len) := by
      rw [List.drop_drop]
      congr 1
      omega
    have hseg : ((text.drop pos).take (idx - pos)).length = idx - pos := by
      simp only [List.length_take, List.length_drop]
      omega
    rw [show interpretLoop (P ++ text.drop pos) li conv ((idx, len, repl) :: rest)
          = interpretLoop
              (jsTake (P ++ text.drop pos) ((idx : Int) + li) ++ repl
                ++ jsDrop (P ++ text.drop pos) ((idx : Int) + li + (len : Int)))
              (li + (repl.length : Int) - (len : Int)) (conv + 1) rest
        from by rw [interpretLoop, if_pos hr]]
    rw [harg1, jsTake_append_exact, harg2, jsDrop_append_exact, hdd]
    have hP' :
        P ++ (text.drop pos).take (idx - pos) ++ repl ++ text.drop (idx + len)
          = (P ++ (text.drop pos).take (idx - pos) ++ repl) ++ text.drop (idx + len) := by
      simp [List.append_assoc]
    rw [hP']
    have hli' : li + (repl.length : Int) - (len : Int)
        = (((P ++ (text.drop pos).take (idx - pos) ++ repl).length : Int))
          - ((idx + len : Nat) : Int) := by
      simp only [List.length_append, hseg]
      omega
    have hdropfull :
        (P ++ (text.drop pos).take (idx - pos) ++ repl) ++ text.drop (idx + len)
          = (P ++ (text.drop pos).take (idx - pos) ++ repl)
            ++ text.drop (idx + len) := rfl
    rw [ih (idx + len) (P ++ (text.drop pos).take (idx - pos) ++ repl) text
          (li + (repl.length : Int) - (len : Int)) (conv + 1) hli' hord' hrep'']
    refine Prod.ext ?_ (Prod.ext ?_ ?_)
    · show (P ++ (text.drop pos).take (idx - pos) ++ repl)
          ++ assemble text (idx + len) rest
        = P ++ assemble text pos ((idx, len, repl) :: rest)
      simp [assemble, List.append_assoc]
    · show li + (repl.length : Int) - (len : Int) + listDelta rest
        = li + listDelta ((idx, len, repl) :: rest)
      simp only [listDelta]
      ring
    · show conv + 1 + rest.length = conv + ((idx, len, repl) :: rest).length
      simp only [List.length_cons]
      omega

/-- Claim C1: for a file whose matches (in document order) all resolve to
exactly one entry with a non-empty rendered replacement, the final text
produced by the resolver's replacement loop equals plain sequential
left-to-right substitution of each replacement at its match's original
span — the loop's `match.index + lastIndex` splice-point arithmetic, with
`lastIndex` the cumulative sum of `replacement.length - match.length`
over prior replacements, realises exactly that substitution — and the
`converted` counter records one converted-term event per replacement. -/
theorem c1_offset_splicing (text : List Char) (ms : List RMatch)
    (hord : orderedFrom text.length 0 ms = true)
    (hrep : allRepl ms = true) :
    interpretLoop text 0 0 ms = (assemble text 0 ms, listDelta ms, ms.length) := by
  have h := interpretLoop_assemble ms 0 [] text 0 0 (by simp) hord hrep
  simpa using h

/-- Witness for C1: the spec's synthetic three-match case with
replacement lengths shorter than, equal to, and longer than their
matches. -/
theorem c1_offset_splicing_witness :
    orderedFrom ("aa bb cc".data.length) 0
        [(0, 2, "X".data), (3, 2, "YY".data), (6, 2, "ZZZ".data)] = true
    ∧ allRepl [(0, 2, "X".data), (3, 2, "YY".data), (6, 2, "ZZZ".data)] = true
    ∧ interpretLoop "aa bb cc".data 0 0
        [(0, 2, "X".data), (3, 2, "YY".data), (6, 2, "ZZZ".data)]
      = (assemble "aa bb cc".data 0
          [(0, 2, "X".data), (3, 2, "YY".data), (6, 2, "ZZZ".data)],
         listDelta [(0, 2, "X".data), (3, 2, "YY".data), (6, 2, "ZZZ".data)],
         ([(0, 2, "X".data), (3, 2, "YY".data), (6, 2, "ZZZ".data)] : List RMatch).length) :=
  ⟨by decide, by decide,
    c1_offset_splicing "aa bb cc".data _ (by decide) (by decide)⟩

/-! ### Ordering helpers shared by the splice results -/

theorem orderedFrom_mono {α : Type} (n : Nat) (ms : List (Nat × Nat × α)) (p1 p2 : Nat)
    (h : orderedFrom n p2 ms = true) (hle : p1 ≤ p2) : orderedFrom n p1 ms = true := by
  cases ms with
  | nil => simp [orderedFrom]
  | cons m rest =>
    obtain ⟨idx, len, a⟩ := m
    simp only [orderedFrom, Bool.and_eq_true, decide_eq_true_eq] at h ⊢
    exact ⟨⟨by omega, h.1.2⟩, h.2⟩

theorem orderedFrom_drop {α : Type} (n : Nat) (ms : List (Nat × Nat × α)) :
    ∀ (k pos : Nat), orderedFrom n pos ms = true →
      orderedFrom n pos (ms.drop k) = true := by
  induction ms with
  | nil => intro k pos _; simp [orderedFrom]
  | cons m rest ih =>
    intro k pos h
    obtain ⟨idx, len, a⟩ := m
    cases k with
    | zero => simpa using h
    | succ k =>
      simp only [orderedFrom, Bool.and_eq_true, decide_eq_true_eq] at h
      simp only [List.drop_succ_cons]
      exact orderedFrom_mono n _ pos (idx + len) (ih k (idx + len) h.2) (by omega)

theorem orderedFrom_filter {α : Type} (n : Nat) (q : Nat × Nat × α → Bool)
    (ms : List (Nat × Nat × α)) :
    ∀ (pos : Nat), orderedFrom n pos ms = true →
      orderedFrom n pos (ms.filter q) = true := by
  induction ms with
  | nil => intro pos _; simp [orderedFrom]
  | cons m rest ih =>
    intro pos h
    obtain ⟨idx, len, a⟩ := m
    simp only [orderedFrom, Bool.and_eq_true, decide_eq_true_eq] at h
    by_cases hq : q (idx, len, a) = true
    · simp only [List.filter_cons, hq, if_true]
      simp only [orderedFrom, Bool.and_eq_true, decide_eq_true_eq]
      exact ⟨⟨h.1.1, h.1.2⟩, ih (idx + len) h.2⟩
    · simp only [List.filter_cons, hq]
      simp only [Bool.false_eq_true, if_false]
      exact orderedFrom_mono n _ pos (idx + len) (ih (idx + len) h.2) (by omega)

theorem interpretLoop_filter (ms : List RMatch) :
    ∀ (text : List Char) (li : Int) (conv : Nat),
      interpretLoop text li conv ms
        = interpretLoop text li conv (ms.filter (fun m => decide (0 < m.2.2.length))) := by
  induction ms with
  | nil => intro text li conv; rfl
  | cons m rest ih =>
    intro text li conv
    obtain ⟨idx, len, repl⟩ := m
    by_cases hr : 0 < repl.length
    · simp only [List.filter_cons, decide_eq_true_eq]
      rw [if_pos hr]
      rw [interpretLoop, if_pos hr, interpretLoop, if_pos hr]
      exact ih _ _ _
    · simp only [List.filter_cons, decide_eq_true_eq]
      rw [if_neg hr]
      rw [interpretLoop, if_neg hr]
      exact ih _ _ _

theorem allRepl_filter (ms : List RMatch) :
    allRepl (ms.filter (fun m => decide (0 < m.2.2.length))) = true := by
  simp only [allRepl, List.all_eq_true]
  intro m hm
  exact (List.mem_filter.mp hm).2

theorem assemble_take (text : List Char) (ms : List RMatch) (fm : Nat)
    (hord : orderedFrom text.length 0 ms = true)
    (hfm : ∀ m ∈ ms, fm ≤ m.1) :
    (assemble text 0 ms).take fm = text.take fm := by
  cases ms with
  | nil => simp [assemble]
  | cons m rest =>
    obtain ⟨idx, len, repl⟩ := m
    simp only [orderedFrom, Bool.and_eq_true, decide_eq_true_eq] at hord
    have hfm1 : fm ≤ idx := hfm (idx, len, repl) (List.mem_cons_self _ _)
    have hidx : idx ≤ text.length := by omega
    simp only [assemble, Nat.sub_zero, List.drop_zero]
    have hlen : (List.take idx text).length = idx := by
      simp [List.length_take]
      omega
    rw [List.take_append_eq_append_take]
    have h0 : fm - (List.take idx text ++ repl).length = 0 := by
      simp only [List.length_append, hlen]
      omega
    rw [h0]
    simp only [List.take_zero, List.append_nil]
    rw [List.take_append_eq_append_take, hlen, Nat.sub_eq_zero_of_le hfm1]
    simp [List.take_take, Nat.min_eq_left hfm1]

/-! ### Last-write-wins merge (TuC.addMrgEntry) -/

theorem insertEntry_of_not_mem (l : List Entry) (e : Entry)
    (h : ∀ x ∈ l, x.term ≠ e.term) : insertEntry l e = l ++ [e] := by
  induction l with
  | nil => rfl
  | cons x rest ih =>
    have hx : (x.term == e.term) = false := by
      simpa using h x (List.mem_cons_self _ _)
    simp only [insertEntry, hx]
    simp only [Bool.false_eq_true, if_false, List.cons_append, List.cons.injEq, true_and]
    exact ih (fun y hy => h y (List.mem_cons_of_mem _ hy))

theorem mem_insertEntry_terms (l : List Entry) (e : Entry) (t : String) :
    t ∈ (insertEntry l e).map (fun x => x.term) →
      t ∈ l.map (fun x => x.term) ∨ t = e.term := by
  induction l with
  | nil => simp [insertEntry]
  | cons x rest ih =>
    by_cases hx : (x.term == e.term) = true
    · simp only [insertEntry, hx, if_true]
      intro h
      simp only [List.map_cons, List.mem_cons] at h ⊢
      rcases h with h | h
      · exact Or.inr h
      · exact Or.inl (Or.inr h)
    · simp only [insertEntry, hx]
      simp only [Bool.false_eq_true, if_false]
      intro h
      simp only [List.map_cons, List.mem_cons] at h ⊢
      rcases h with h | h
      · exact Or.inl (Or.inl h)
      · rcases ih h with h' | h'
        · exact Or.inl (Or.inr h')
        · exact Or.inr h'

theorem insertEntry_terms_nodup (l : List Entry) (e : Entry)
    (h : (l.map (fun x => x.term)).Nodup) :
    ((insertEntry l e).map (fun x => x.term)).Nodup := by
  induction l with
  | nil => simp [insertEntry]
  | cons x rest ih =>
    simp only [List.map_cons, List.nodup_cons] at h
    cases hx : (x.term == e.term) with
    | true =>
      have hxe : x.term = e.term := by simpa using hx
      simp only [insertEntry, hx, if_true]
      simp only [List.map_cons, List.nodup_cons]
      rw [← hxe]
      exact h
    | false =>
      simp only [insertEntry, hx]
      simp only [Bool.false_eq_true, if_false]
      simp only [List.map_cons, List.nodup_cons]
      constructor
      · intro hmem
        rcases mem_insertEntry_terms rest e x.term hmem with h' | h'
        · exact h.1 h'
        · have : (x.term == e.term) = true := by simpa using h'
          rw [hx] at this
          exact Bool.false_ne_true this
      · exact ih h.2

theorem filter_term_eq_nil (l : List Entry) (t : String)
    (h : ∀ x ∈ l, x.term ≠ t) : l.filter (fun x => x.term == t) = [] := by
  induction l with
  | nil => rfl
  | cons x rest ih =>
    have hx : (x.term == t) = false := by
      simpa using h x (List.mem_cons_self _ _)
    simp only [List.filter_cons, hx]
    simp only [Bool.false_eq_true, if_false]
    exact ih (fun y hy => h y (List.mem_cons_of_mem _ hy))

theorem insertEntry_filter (l : List Entry) (e : Entry) (t : String)
    (hnd : (l.map (fun x => x.term)).Nodup) :
    (insertEntry l e).filter (fun x => x.term == t)
      = if e.term == t then [e] else l.filter (fun x => x.term == t) := by
  induction l with
  | nil =>
    simp [insertEntry, List.filter_cons]
  | cons x rest ih =>
    simp only [List.map_cons, List.nodup_cons] at hnd
    cases hx : (x.term == e.term) with
    | true =>
      have hxe : x.term = e.term := by simpa using hx
      simp only [insertEntry, hx, if_true]
      cases ht : (e.term == t) with
      | true =>
        have het : e.term = t := by simpa using ht
        simp only [List.filter_cons, ht, if_true]
        have hrest : rest.filter (fun z => z.term == t) = [] := by
          refine filter_term_eq_nil rest t (fun y hy hyt => hnd.1 ?_)
          have hxy : x.term = y.term := by rw [hxe, het, hyt]
          rw [hxy]
          exact List.mem_map_of_mem _ hy
        rw [hrest]
      | false =>
        have hxt : (x.term == t) = false := by
          rw [hxe]
          exact ht
        simp [List.filter_cons, hxt, ht]
    | false =>
      simp only [insertEntry, hx]
      simp only [Bool.false_eq_true, if_false]
      cases ht : (e.term == t) with
      | true =>
        have het : e.term = t := by simpa using ht
        have hxt : (x.term == t) = false := by
          rw [← het]
          exact hx
        simp only [List.filter_cons, hxt]
        simp only [Bool.false_eq_true, if_false]
        rw [ih hnd.2]
        simp [ht]
      | false =>
        simp only [List.filter_cons]
        rw [ih hnd.2]
        simp [ht]

theorem addEntries_filter (adds : List Entry) :
    ∀ (l : List Entry) (t : String), (l.map (fun x => x.term)).Nodup →
      (addEntries l adds).filter (fun x => x.term == t)
        = match lastAdded t adds with
          | some e => [e]
          | none => l.filter (fun x => x.term == t) := by
  induction adds with
  | nil => intro l t _; rfl
  | cons a rest ih =>
    intro l t hnd
    have step : addEntries l (a :: rest) = addEntries (insertEntry l a) rest := rfl
    rw [step, ih (insertEntry l a) t (insertEntry_terms_nodup l a hnd)]
    simp only [lastAdded]
    cases hcase : lastAdded t rest with
    | some x => rfl
    | none =>
      rw [insertEntry_filter l a t hnd]
      by_cases ht : (a.term == t) = true
      · simp [ht]
      · simp [ht]

/-- Claim C2: over any sequence of add/select instructions, the
accumulated entry set keeps exactly one entry per added term, equal to
the (shallow copy of the) last entry added with that term, and an entry
whose term is not yet present is appended. -/
theorem c2_last_write_wins :
    (∀ (adds : List Entry) (t : String),
        (addEntries [] adds).filter (fun x => x.term == t)
          = match lastAdded t adds with
            | some e => [e]
            | none => [])
    ∧ (∀ (l : List Entry) (e : Entry),
        (∀ x ∈ l, x.term ≠ e.term) → insertEntry l e = l ++ [e]) := by
  constructor
  · intro adds t
    have h := addEntries_filter adds [] t (by simp)
    simpa using h
  · exact insertEntry_of_not_mem

/-- Witness for C2: two additions of term `x` around an addition of term
`y` leave exactly the last `x`-entry, and inserting a fresh term
appends. -/
theorem c2_last_write_wins_witness :
    (addEntries []
        [{ term := "x", source := "1" }, { term := "y" }, { term := "x", source := "2" }]).filter
        (fun x => x.term == "x")
      = [{ term := "x", source := "2" }]
    ∧ insertEntry [{ term := "y" }] { term := "x" }
      = [{ term := "y" }, { term := "x" }] := by
  constructor
  · rw [c2_last_write_wins.1
      [{ term := "x", source := "1" }, { term := "y" }, { term := "x", source := "2" }] "x"]
    decide
  · exact c2_last_write_wins.2 [{ term := "y" }] { term := "x" } (by decide)

/-! ### Removal instruction (TuC.removeMrgEntry) -/

theorem removeLoop_str_mem (s : String) (vals : List String) (h : s ∈ vals) :
    removeLoop (.str s) vals = some false := by
  induction vals with
  | nil => cases h
  | cons v rest ih =>
    simp only [removeLoop]
    cases hv : (s == v) with
    | true => simp
    | false =>
      have : s ≠ v := by simpa using hv
      have hs : s ∈ rest := by
        rcases List.mem_cons.mp h with h' | h'
        · exact absurd h' this
        · exact h'
      simp only [Bool.false_eq_true, if_false]
      exact ih hs

theorem removeLoop_vlist (l : List String) (vals : List String) :
    removeLoop (.vlist l) vals = some true := by
  induction vals with
  | nil => rfl
  | cons v rest ih =>
    simp only [removeLoop]
    cases hv : l.contains v with
    | true => simp
    | false =>
      simp only [Bool.false_eq_true, if_false]
      exact ih

theorem removeEval_none_isSome (key : String) (e : Entry) :
    (removeEval key none e).isSome = true := by
  unfold removeEval
  cases fieldOf e key with
  | none => rfl
  | some v =>
    by_cases hv : v = .str "" ∨ v = .null
    · simp [hv]
    · simp [hv]

/-- Claim C4: evaluated against the accumulated entry set, a removal
instruction `-key[v1,...]` removes an entry whose `key` field is a
string equal to one of the listed values, RETAINS (does not remove) an
entry whose `key` field is a list containing one of the listed values,
and removes an entry whose `key` field is empty-or-null when the values
list is absent.  (The first two parts assume the filter callback throws
on no entry, i.e. no entry has a null-valued `key` field, since a throw
aborts the whole instruction.) -/
theorem c4_removal_list_quirk :
    (∀ (key : String) (vals : List String) (entries : List Entry) (e : Entry) (s : String),
        (∀ x ∈ entries, (removeEval key (some vals) x).isSome = true) →
        e ∈ entries → fieldOf e key = some (.str s) → s ∈ vals →
        e ∉ removeMrgEntry key (some vals) entries)
    ∧ (∀ (key : String) (vals : List String) (entries : List Entry) (e : Entry) (l : List String),
        (∀ x ∈ entries, (removeEval key (some vals) x).isSome = true) →
        e ∈ entries → fieldOf e key = some (.vlist l) → (∃ v ∈ vals, v ∈ l) →
        e ∈ removeMrgEntry key (some vals) entries)
    ∧ (∀ (key : String) (entries : List Entry) (e : Entry) (v : FieldValue),
        e ∈ entries → fieldOf e key = some v → (v = .str "" ∨ v = .null) →
        e ∉ removeMrgEntry key none entries) := by
  refine ⟨?_, ?_, ?_⟩
  · intro key vals entries e s hall hmem hf hs
    have heval : removeEval key (some vals) e = some false := by
      unfold removeEval
      rw [hf]
      exact removeLoop_str_mem s vals hs
    unfold removeMrgEntry
    rw [if_pos (by simpa [List.all_eq_true] using hall)]
    intro hcontra
    have := (List.mem_filter.mp hcontra).2
    rw [heval] at this
    simp at this
  · intro key vals entries e l hall hmem hf _
    have heval : removeEval key (some vals) e = some true := by
      unfold removeEval
      rw [hf]
      exact removeLoop_vlist l vals
    unfold removeMrgEntry
    rw [if_pos (by simpa [List.all_eq_true] using hall)]
    refine List.mem_filter.mpr ⟨hmem, ?_⟩
    rw [heval]
    rfl
  · intro key entries e v hmem hf hv
    have heval : removeEval key none e = some false := by
      unfold removeEval
      rw [hf]
      simp [hv]
    unfold removeMrgEntry
    rw [if_pos (by
      simp only [List.all_eq_true]
      intro x _
      exact removeEval_none_isSome key x)]
    intro hcontra
    have := (List.mem_filter.mp hcontra).2
    rw [heval] at this
    simp at this

/-- Witness for C4: with `-k[a]`, an entry whose `k` is the string `"a"`
is removed while an entry whose `k` is the list `["a","b"]` is retained;
with `-k` (no values), an entry whose `k` is `""` is removed. -/
theorem c4_removal_list_quirk_witness :
    ({ term := "t1", fields := [("k", FieldValue.str "a")] } : Entry)
        ∉ removeMrgEntry "k" (some ["a"])
            [{ term := "t1", fields := [("k", FieldValue.str "a")] },
             { term := "t2", fields := [("k", FieldValue.vlist ["a", "b"])] }]
    ∧ ({ term := "t2", fields := [("k", FieldValue.vlist ["a", "b"])] } : Entry)
        ∈ removeMrgEntry "k" (some ["a"])
            [{ term := "t1", fields := [("k", FieldValue.str "a")] },
             { term := "t2", fields := [("k", FieldValue.vlist ["a", "b"])] }]
    ∧ ({ term := "t3", fields := [("k", FieldValue.str "")] } : Entry)
        ∉ removeMrgEntry "k" none
            [{ term := "t3", fields := [("k", FieldValue.str "")] }] :=
  ⟨c4_removal_list_quirk.1 "k" ["a"] _ _ "a" (by decide) (by decide) (by decide) (by decide),
   c4_removal_list_quirk.2.1 "k" ["a"] _ _ ["a", "b"] (by decide) (by decide) (by decide)
     ⟨"a", by decide, by decide⟩,
   c4_removal_list_quirk.2.2 "k" _ _ (FieldValue.str "") (by decide) (by decide) (Or.inl rfl)⟩

/-! ### Scopetag/vsntag defaulting (Resolver.interpretAndConvert) -/

theorem falsyS_iff (o : Option String) :
    falsyS o = true ↔ o = none ∨ o = some "" := by
  cases o with
  | none => simp [falsyS]
  | some s =>
    simp only [falsyS, beq_iff_eq]
    constructor
    · intro h
      exact Or.inr (by rw [h])
    · rintro (h | h)
      · cases h
      · injection h

/-- Claim C5: an absent scopetag defaults to the current scope's
scopetag; an absent vsntag is set to the current scope's default version
exactly when the (possibly defaulted) scopetag equals the current
scope's scopetag; and a reference to an imported scope with no vsntag is
resolved against that scope's unsuffixed registry filename
`mrg.<scopetag>.yaml`. -/
theorem c5_vsntag_defaulting :
    ∀ (st0 vt0 : Option String) (safTag dflt : String),
      (falsyS st0 = true → (resolveRefTags st0 vt0 safTag dflt).1 = safTag)
      ∧ (dflt ≠ "" → falsyS vt0 = true →
          ((resolveRefTags st0 vt0 safTag dflt).2.1 = some dflt
            ↔ (resolveRefTags st0 vt0 safTag dflt).1 = safTag))
      ∧ ((resolveRefTags st0 vt0 safTag dflt).1 ≠ safTag → falsyS vt0 = true →
          (resolveRefTags st0 vt0 safTag dflt).2.2
            = "mrg." ++ (resolveRefTags st0 vt0 safTag dflt).1 ++ ".yaml") := by
  intro st0 vt0 safTag dflt
  refine ⟨?_, ?_, ?_⟩
  · intro h
    simp [resolveRefTags, resolvedScopetag, h]
  · intro hd hv
    simp only [resolveRefTags]
    constructor
    · intro h
      by_contra hne
      have hbeq : (resolvedScopetag st0 safTag == safTag) = false := by
        simpa using hne
      rw [resolvedVsntag, hbeq] at h
      simp only [Bool.false_and, Bool.false_eq_true, if_false] at h
      rcases (falsyS_iff vt0).mp hv with h' | h'
      · rw [h'] at h
        cases h
      · rw [h'] at h
        injection h with h''
        exact hd h''.symm
    · intro h
      have hbeq : (resolvedScopetag st0 safTag == safTag) = true := by
        simpa using h
      rw [resolvedVsntag, hbeq, hv]
      simp
  · intro hne hv
    have hbeq : (resolvedScopetag st0 safTag == safTag) = false := by
      simpa using hne
    have hvt : resolvedVsntag st0 vt0 safTag dflt = vt0 := by
      rw [resolvedVsntag, hbeq]
      simp
    have hfv : falsyS (resolvedVsntag st0 vt0 safTag dflt) = true := by
      rw [hvt]
      exact hv
    simp [resolveRefTags, resolvedMrgFile, hfv]

/-- Witness for C5: a reference `term@other` (no vsntag) in a scope
`tev2` with default version `v1` keeps an empty vsntag and resolves
against `mrg.other.yaml`; a reference with both tags absent defaults to
scopetag `tev2` and vsntag `v1`. -/
theorem c5_vsntag_defaulting_witness :
    (resolveRefTags (some "other") none "tev2" "v1").2.2 = "mrg." ++ "other" ++ ".yaml"
    ∧ (resolveRefTags none none "tev2" "v1").1 = "tev2"
    ∧ ((resolveRefTags none none "tev2" "v1").2.1 = some "v1"
        ↔ (resolveRefTags none none "tev2" "v1").1 = "tev2") := by
  refine ⟨?_, ?_, ?_⟩
  · have h := (c5_vsntag_defaulting (some "other") none "tev2" "v1").2.2 (by decide) (by decide)
    simpa using h
  · exact (c5_vsntag_defaulting none none "tev2" "v1").1 (by decide)
  · exact (c5_vsntag_defaulting none none "tev2" "v1").2.1 (by decide) (by decide)

/-! ### Zero-match fuzzy suggestion (spec-modelled resolver branch) -/

theorem bestTermEntry_foldl_some (v : String) (rest : List Entry) :
    ∀ (b : Entry),
      ∃ e, rest.foldl
        (fun best x =>
          match best with
          | none => some x
          | some b => if similarity v b.term < similarity v x.term then some x else some b)
        (some b) = some e := by
  induction rest with
  | nil => intro b; exact ⟨b, rfl⟩
  | cons y rest ih =>
    intro b
    simp only [List.foldl_cons]
    by_cases hc : similarity v b.term < similarity v y.term
    · rw [if_pos hc]
      exact ih y
    · rw [if_neg hc]
      exact ih b

theorem bestTermEntry_isSome (v : String) (es : List Entry) (h : es ≠ []) :
    ∃ e, bestTermEntry v es = some e := by
  cases es with
  | nil => exact absurd rfl h
  | cons x rest =>
    unfold bestTermEntry
    simp only [List.foldl_cons]
    exact bestTermEntry_foldl_some v rest x

/-- Claim C3: a term reference matching zero entries of the active
non-empty registry is never spliced; the resolver emits the zero-match
diagnostic, which suggests the best-term-matching entry's full
reference when the average of the three best-per-property
edit-distance-based similarity scores exceeds the fixed threshold, and
is the plain no-match diagnostic otherwise. -/
theorem c3_zero_match_fuzzy :
    ∀ (es : List Entry) (mrgVsn termV scopeV vsnV : String) (conv : Entry → String),
      es ≠ [] → matchingEntries es termV = [] →
      (∀ r, resolveStep es mrgVsn termV scopeV vsnV conv ≠ .splice r)
      ∧ resolveStep es mrgVsn termV scopeV vsnV conv
          = .keepNoMatch (noMatchOutcome termV scopeV vsnV mrgVsn es)
      ∧ (fuzzyThreshold < fuzzyAvg termV scopeV vsnV mrgVsn es →
          ∃ e, bestTermEntry termV es = some e
            ∧ noMatchOutcome termV scopeV vsnV mrgVsn es = .suggestion (fullRef e mrgVsn))
      ∧ (¬ fuzzyThreshold < fuzzyAvg termV scopeV vsnV mrgVsn es →
          noMatchOutcome termV scopeV vsnV mrgVsn es
            = .plain (termV ++ "@" ++ scopeV ++ ":" ++ vsnV)) := by
  intro es mrgVsn termV scopeV vsnV conv hne hzero
  have hstep : resolveStep es mrgVsn termV scopeV vsnV conv
      = .keepNoMatch (noMatchOutcome termV scopeV vsnV mrgVsn es) := by
    unfold resolveStep
    rw [hzero]
  refine ⟨?_, hstep, ?_, ?_⟩
  · intro r hcontra
    rw [hstep] at hcontra
    cases hcontra
  · intro hgt
    obtain ⟨e, he⟩ := bestTermEntry_isSome termV es hne
    refine ⟨e, he, ?_⟩
    unfold noMatchOutcome
    rw [if_pos hgt, he]
  · intro hle
    unfold noMatchOutcome
    rw [if_neg hle]

/-- Witness for C3: reference `ac@s:v` against a registry holding only
the entry `ab` in scope `s` — no exact match, fuzzy average
`(50 + 100 + 100) / 3 = 83` exceeds the threshold, so the diagnostic
suggests `ab@s:v`, and nothing is spliced. -/
theorem c3_zero_match_fuzzy_witness :
    resolveStep [{ term := "ab", scopetag := "s" }] "v" "ac" "s" "v" (fun _ => "out")
      = .keepNoMatch (noMatchOutcome "ac" "s" "v" "v" [{ term := "ab", scopetag := "s" }])
    ∧ noMatchOutcome "ac" "s" "v" "v" [{ term := "ab", scopetag := "s" }]
      = .suggestion "ab@s:v" :=
  ⟨(c3_zero_match_fuzzy [{ term := "ab", scopetag := "s" }] "v" "ac" "s" "v" (fun _ => "out")
      (by decide) (by decide)).2.1,
   by decide⟩

/-! ### Import-time file duplication (mrg-import initialize) -/

theorem mrgFileName_some_ne_none (tag v : String) :
    mrgFileName tag (some v) ≠ mrgFileName tag none := by
  intro h
  have hlen := congrArg String.length h
  have h1 : ("mrg." : String).length = 4 := by decide
  have h2 : ("." : String).length = 1 := by decide
  have h3 : (".yaml" : String).length = 5 := by decide
  simp only [mrgFileName, String.length_append, h1, h2, h3] at hlen
  omega

/-- Counterexample for C6: with `altvsntags` given as the single string
`"v2.1"` and `defaultvsn = "2.1"`, the import coordinator writes the
unsuffixed alias file although the version tag does not equal the
defaultvsn and the defaultvsn is not among the altvsntags — the check
`altvsntags?.includes(defaultvsn)` runs before the string-to-array
normalisation, so it is JS substring containment. -/
theorem c6_import_duplication_counterexample :
    (mrgFileName "t" none, "c") ∈ importVersionWrites "t" "v1" (.one "v2.1") "2.1" "c"
    ∧ ¬ ("v1" = "2.1" ∨ "2.1" ∈ normalizeAlt (AltVsn.one "v2.1")) := by
  decide

/-- Claim C6 (amended): for one successfully fetched imported version,
the coordinator writes the canonical file `mrg.<tag>.<v>.yaml`; writes
the unsuffixed alias `mrg.<tag>.yaml` exactly when `v` equals the remote
scope's defaultvsn or `altvsntags?.includes(defaultvsn)` holds — list
membership when `altvsntags` is a list, JS substring containment when it
is a single string; writes one alias `mrg.<tag>.<alt>.yaml` per
(normalised) altvsntag; and every file carries the same serialized
content. -/
theorem c6_import_duplication :
    ∀ (tag vsntag : String) (alts : AltVsn) (dflt content : String),
      ((mrgFileName tag (some vsntag), content)
          ∈ importVersionWrites tag vsntag alts dflt content)
      ∧ ((mrgFileName tag none, content) ∈ importVersionWrites tag vsntag alts dflt content
          ↔ (vsntag = dflt ∨ jsIncludesAlt alts dflt = true))
      ∧ (∀ a ∈ normalizeAlt alts,
          (mrgFileName tag (some a), content) ∈ importVersionWrites tag vsntag alts dflt content)
      ∧ (∀ w ∈ importVersionWrites tag vsntag alts dflt content, w.2 = content) := by
  intro tag vsntag alts dflt content
  refine ⟨?_, ⟨?_, ?_⟩, ?_, ?_⟩
  · simp [importVersionWrites]
  · intro hmem
    by_cases hc : (vsntag == dflt || jsIncludesAlt alts dflt) = true
    · rcases Bool.or_eq_true_iff.mp hc with h | h
      · exact Or.inl (by simpa using h)
      · exact Or.inr h
    · exfalso
      simp only [importVersionWrites, hc] at hmem
      simp only [Bool.false_eq_true, if_false, List.append_nil, List.nil_append,
        List.mem_append, List.mem_singleton, List.mem_map, List.mem_cons,
        List.not_mem_nil, or_false] at hmem
      rcases hmem with hmem | hmem
      · exact mrgFileName_some_ne_none tag vsntag (congrArg Prod.fst hmem).symm
      · obtain ⟨a, _, ha⟩ := hmem
        exact mrgFileName_some_ne_none tag a (congrArg Prod.fst ha)
  · intro h
    have hc : (vsntag == dflt || jsIncludesAlt alts dflt) = true := by
      rcases h with h | h
      · simp [h]
      · simp [h]
    simp [importVersionWrites, hc]
  · intro a ha
    simp only [importVersionWrites, List.mem_append, List.mem_map]
    exact Or.inr ⟨a, ha, rfl⟩
  · intro w hw
    simp only [importVersionWrites, List.mem_append, List.mem_singleton, List.mem_map,
      List.mem_cons, List.not_mem_nil, or_false] at hw
    rcases hw with (hw | hw) | hw
    · rw [hw]
    · split at hw
      · simp only [List.mem_singleton] at hw
        rw [hw]
      · simp at hw
    · obtain ⟨a, _, ha⟩ := hw
      rw [← ha]

/-- Witness for C6 (amended): the spec's duplication example — version
`v2` with `altvsntags: [v2.1]` that is also the scope's `defaultvsn`
yields the canonical file, the unsuffixed alias, and the `v2.1` alias. -/
theorem c6_import_duplication_witness :
    (mrgFileName "t" (some "v2"), "c") ∈ importVersionWrites "t" "v2" (.many ["v2.1"]) "v2" "c"
    ∧ (mrgFileName "t" none, "c") ∈ importVersionWrites "t" "v2" (.many ["v2.1"]) "v2" "c"
    ∧ (mrgFileName "t" (some "v2.1"), "c") ∈ importVersionWrites "t" "v2" (.many ["v2.1"]) "v2" "c" :=
  ⟨(c6_import_duplication "t" "v2" (.many ["v2.1"]) "v2" "c").1,
   (c6_import_duplication "t" "v2" (.many ["v2.1"]) "v2" "c").2.1.mpr (Or.inl rfl),
   (c6_import_duplication "t" "v2" (.many ["v2.1"]) "v2" "c").2.2.1 "v2.1" (by decide)⟩

/-! ### Id slugification (trrt Interpreter.interpret) -/

theorem collapseGo_true_dropWhile (q : Char → Bool) :
    ∀ (l : List Char),
      collapseGo q true l = collapseGo q false (l.dropWhile (fun d => ! q d)) := by
  intro l
  induction l with
  | nil => rfl
  | cons c cs ih =>
    cases hq : q c with
    | true =>
      simp [collapseGo, hq, List.dropWhile_cons]
    | false =>
      simp only [collapseGo, hq, List.dropWhile_cons, Bool.not_false]
      simp only [Bool.false_eq_true, if_false, if_true]
      exact ih

theorem collapseGo_eq_specCollapse (q : Char → Bool) :
    ∀ (n : Nat) (l : List Char), l.length ≤ n →
      collapseGo q false l = specCollapse q l := by
  intro n
  induction n with
  | zero =>
    intro l hl
    have : l = [] := List.eq_nil_of_length_eq_zero (by omega)
    rw [this]
    simp [collapseGo, specCollapse]
  | succ n ih =>
    intro l hl
    cases l with
    | nil => simp [collapseGo, specCollapse]
    | cons c cs =>
      cases hq : q c with
      | true =>
        rw [specCollapse]
        simp only [collapseGo, hq, if_true]
        rw [ih cs (by simp only [List.length_cons] at hl; omega)]
      | false =>
        rw [specCollapse]
        simp only [collapseGo, hq]
        simp only [Bool.false_eq_true, if_false]
        rw [collapseGo_true_dropWhile q cs]
        have hd : (cs.dropWhile (fun d => ! q d)).length ≤ n := by
          have h1 := (List.dropWhile_sublist (l := cs) (fun d => ! q d)).length_le
          simp only [List.length_cons] at hl
          omega
        rw [ih _ hd]

/-- Claim C7: the interpreter's decode takes a non-empty `id` capture
group verbatim, and otherwise sets the id to the slugified showtext:
lowercased, every apostrophe and parenthesis deleted, and every maximal
run of characters outside `[a-z0-9_-]` collapsed to a single hyphen. -/
theorem c7_id_slugification :
    ∀ (idg : Option String) (showtext : String),
      interpretId idg showtext
        = if 0 < (idg.getD "").length then idg.getD "" else specSlug showtext := by
  intro idg showtext
  have hslug : slugify showtext = specSlug showtext := by
    unfold slugify specSlug
    rw [collapseGo_eq_specCollapse allowedChar
      (((showtext.data.map Char.toLower).filter (fun c => ! isStrippedChar c)).length) _
      (Nat.le_refl _)]
  cases idg with
  | none =>
    simp only [interpretId, Option.getD]
    rw [if_neg (by decide)]
    exact hslug
  | some s =>
    simp only [interpretId, Option.getD]
    by_cases hs : 0 < s.length
    · rw [if_pos hs, if_pos hs]
    · rw [if_neg hs, if_neg hs]
      exact hslug

/-! ### Output-file writing (Resolver.writeFile) -/

theorem readFileAt_putFile (fs : FileSys) (p data : String) :
    readFileAt (putFile fs p data) p = some data := by
  unfold readFileAt putFile
  have hfind : ∀ (l : List (String × String)),
      (l.filter (fun q => ! (q.1 == p)) ++ [(p, data)]).find? (fun q => q.1 == p)
        = some (p, data) := by
    intro l
    induction l with
    | nil => simp [List.find?]
    | cons q rest ih =>
      cases hq : (q.1 == p) with
      | true =>
        simp only [List.filter_cons, hq, Bool.not_true]
        simp only [Bool.false_eq_true, if_false]
        exact ih
      | false =>
        simp only [List.filter_cons, hq, Bool.not_false, if_true, List.cons_append,
          List.find?_cons, hq]
        exact ih
  rw [hfind fs.files]
  rfl

/-- Claim C8: when the output directory already exists and already
contains a file of the same name, `writeFile` with force disabled does
not write (the file system is unchanged), logs the E013 error diagnostic
instead of crashing, and records no file-written event; with force
enabled it overwrites the file and records a file-written event. -/
theorem c8_force_overwrite :
    ∀ (fs : FileSys) (d f data : String),
      fs.dirs.contains d = true →
      fs.files.any (fun q => q.1 == pathJoin d f) = true →
      ((writeFileModel fs d f data false).fsys = fs
        ∧ (writeFileModel fs d f data false).errorE013 = true
        ∧ (writeFileModel fs d f data false).written = false)
      ∧ ((writeFileModel fs d f data true).written = true
        ∧ (writeFileModel fs d f data true).errorE013 = false
        ∧ readFileAt (writeFileModel fs d f data true).fsys (pathJoin d f) = some data) := by
  intro fs d f data hdir hfile
  constructor
  · have hred : writeFileModel fs d f data false
        = { fsys := fs, errorE013 := true, written := false } := by
      unfold writeFileModel
      rw [hdir]
      simp [hfile]
    rw [hred]
    exact ⟨rfl, rfl, rfl⟩
  · have hred : writeFileModel fs d f data true
        = { fsys := putFile fs (pathJoin d f) data, errorE013 := false, written := true } := by
      unfold writeFileModel
      rw [hdir]
      simp
    rw [hred]
    exact ⟨rfl, rfl, readFileAt_putFile fs (pathJoin d f) data⟩

/-- Witness for C8: a file system whose directory `out` already holds
`out/a.md`. -/
theorem c8_force_overwrite_witness :
    ((writeFileModel ⟨["out"], [("out/a.md", "old")]⟩ "out" "a.md" "new" false).fsys
        = ⟨["out"], [("out/a.md", "old")]⟩
      ∧ (writeFileModel ⟨["out"], [("out/a.md", "old")]⟩ "out" "a.md" "new" false).errorE013 = true
      ∧ (writeFileModel ⟨["out"], [("out/a.md", "old")]⟩ "out" "a.md" "new" false).written = false)
    ∧ ((writeFileModel ⟨["out"], [("out/a.md", "old")]⟩ "out" "a.md" "new" true).written = true
      ∧ (writeFileModel ⟨["out"], [("out/a.md", "old")]⟩ "out" "a.md" "new" true).errorE013 = false
      ∧ readFileAt (writeFileModel ⟨["out"], [("out/a.md", "old")]⟩ "out" "a.md" "new" true).fsys
          (pathJoin "out" "a.md") = some "new") :=
  c8_force_overwrite ⟨["out"], [("out/a.md", "old")]⟩ "out" "a.md" "new"
    (by decide) (by decide)

/-! ### Scopes-set validation (TuC constructor) -/

theorem scopesFixup_inv (saf : List ScopeRec) :
    ∀ (rest visited : List ScopeRec),
      (∀ v ∈ visited, ∃ sa, safFind saf v.scopetag = some sa ∧ v.scopedir = sa.scopedir) →
      (tagsOf visited).Nodup →
      (∀ v ∈ visited, ∀ y ∈ rest, v.scopetag ≠ y.scopetag) →
      (∀ v ∈ scopesFixup saf visited rest,
          ∃ sa, safFind saf v.scopetag = some sa ∧ v.scopedir = sa.scopedir)
      ∧ (tagsOf (scopesFixup saf visited rest)).Nodup := by
  intro rest
  induction rest with
  | nil =>
    intro visited hres hnd _
    exact ⟨hres, hnd⟩
  | cons x rest ih =>
    intro visited hres hnd hdisj
    by_cases hc :
        1 < ((visited ++ x :: rest).filter (fun s => s.scopetag == x.scopetag)).length
    · rw [scopesFixup, if_pos hc]
      exact ih visited hres hnd
        (fun v hv y hy => hdisj v hv y (List.mem_cons_of_mem _ hy))
    · rw [scopesFixup, if_neg hc]
      have hsplit : ((visited ++ x :: rest).filter (fun s => s.scopetag == x.scopetag)).length
          = (visited.filter (fun s => s.scopetag == x.scopetag)).length
            + (1 + (rest.filter (fun s => s.scopetag == x.scopetag)).length) := by
        rw [List.filter_append, List.length_append, List.filter_cons,
          if_pos (by simp : (x.scopetag == x.scopetag) = true)]
        simp only [List.length_cons]
        omega
      have hva : visited.filter (fun s => s.scopetag == x.scopetag) = [] := by
        rw [List.length_eq_zero.symm]
        omega
      have hvb : rest.filter (fun s => s.scopetag == x.scopetag) = [] := by
        rw [List.length_eq_zero.symm]
        omega
      have hva' : ∀ v ∈ visited, v.scopetag ≠ x.scopetag := by
        intro v hv
        have := List.filter_eq_nil_iff.mp hva v hv
        simpa using this
      have hvb' : ∀ y ∈ rest, y.scopetag ≠ x.scopetag := by
        intro y hy
        have := List.filter_eq_nil_iff.mp hvb y hy
        simpa using this
      cases hsa : safFind saf x.scopetag with
      | some sa =>
        refine ih (visited ++ [{ scopetag := x.scopetag, scopedir := sa.scopedir }]) ?_ ?_ ?_
        · intro v hv
          rcases List.mem_append.mp hv with hv | hv
          · exact hres v hv
          · have : v = { scopetag := x.scopetag, scopedir := sa.scopedir } := by
              simpa using hv
            rw [this]
            exact ⟨sa, hsa, rfl⟩
        · have : tagsOf (visited ++ [{ scopetag := x.scopetag, scopedir := sa.scopedir }])
              = tagsOf visited ++ [x.scopetag] := by
            simp [tagsOf]
          rw [this, List.nodup_append]
          refine ⟨hnd, List.nodup_singleton _, ?_⟩
          intro a ha hb
          have hax : a = x.scopetag := by simpa using hb
          obtain ⟨v, hv, hv'⟩ := List.mem_map.mp ha
          exact hva' v hv (by rw [hv', hax])
        · intro v hv y hy
          rcases List.mem_append.mp hv with hv | hv
          · exact hdisj v hv y (List.mem_cons_of_mem _ hy)
          · have : v = { scopetag := x.scopetag, scopedir := sa.scopedir } := by
              simpa using hv
            rw [this]
            exact fun hcontra => hvb' y hy hcontra.symm
      | none =>
        exact ih visited hres hnd
          (fun v hv y hy => hdisj v hv y (List.mem_cons_of_mem _ hy))

/-- Claim C9: after the constructor's fixup, the entry list is
untouched, every element of the `scopes` set has a scopetag the SAF can
resolve and carries the scopedir recorded there, and the set holds at
most one element per scopetag. -/
theorem c9_scopes_validation :
    ∀ (saf : List ScopeRec) (entries : List Entry) (scopes : List ScopeRec),
      (tucFinalize saf entries scopes).1 = entries
      ∧ (∀ v ∈ (tucFinalize saf entries scopes).2,
          ∃ sa, safFind saf v.scopetag = some sa ∧ v.scopedir = sa.scopedir)
      ∧ (tagsOf (tucFinalize saf entries scopes).2).Nodup := by
  intro saf entries scopes
  have h := scopesFixup_inv saf scopes []
    (by intro v hv; cases hv) (by simp [tagsOf]) (by intro v hv; cases hv)
  exact ⟨rfl, h.1, h.2⟩

/-- Witness for C9: scopes `[a, b, a]` against a SAF that only knows
scope `a` collapse to the single validated record `⟨a, dirA⟩`, with the
entries untouched. -/
theorem c9_scopes_validation_witness :
    (tucFinalize [⟨"a", "dirA"⟩] [{ term := "t" }] [⟨"a", ""⟩, ⟨"b", ""⟩, ⟨"a", ""⟩]).1
      = [{ term := "t" }]
    ∧ (∃ sa, safFind [⟨"a", "dirA"⟩] (ScopeRec.mk "a" "dirA").scopetag = some sa
        ∧ (ScopeRec.mk "a" "dirA").scopedir = sa.scopedir)
    ∧ (tagsOf
        (tucFinalize [⟨"a", "dirA"⟩] [{ term := "t" }] [⟨"a", ""⟩, ⟨"b", ""⟩, ⟨"a", ""⟩]).2).Nodup :=
  ⟨(c9_scopes_validation [⟨"a", "dirA"⟩] [{ term := "t" }] [⟨"a", ""⟩, ⟨"b", ""⟩, ⟨"a", ""⟩]).1,
   (c9_scopes_validation [⟨"a", "dirA"⟩] [{ term := "t" }]
      [⟨"a", ""⟩, ⟨"b", ""⟩, ⟨"a", ""⟩]).2.1 (ScopeRec.mk "a" "dirA") (by decide),
   (c9_scopes_validation [⟨"a", "dirA"⟩] [{ term := "t" }]
      [⟨"a", ""⟩, ⟨"b", ""⟩, ⟨"a", ""⟩]).2.2⟩

/-! ### Front-matter match dropping (Resolver.interpretAndConvert) -/

theorem leadsWith_length : ∀ (p l : List Char), leadsWith p l = true → p.length ≤ l.length := by
  intro p
  induction p with
  | nil => intro l _; simp
  | cons a as ih =>
    intro l h
    cases l with
    | nil => cases h
    | cons b bs =>
      simp only [leadsWith, Bool.and_eq_true] at h
      have := ih bs h.2
      simp only [List.length_cons]
      omega

theorem scanGo_ordered (p : List Char) (rfn : Nat → Nat → List Char) :
    ∀ (fuel : Nat) (l : List Char) (i : Nat), l.length ≤ fuel →
      orderedFrom (i + l.length) i
        ((scanGo p fuel l i).map (fun m => (m.1, m.2, rfn m.1 m.2))) = true := by
  intro fuel
  induction fuel with
  | zero =>
    intro l i _
    simp [scanGo, orderedFrom]
  | succ fuel ih =>
    intro l i hl
    cases l with
    | nil => simp [scanGo, orderedFrom]
    | cons c cs =>
      by_cases hm : (leadsWith p (c :: cs) && decide (0 < p.length)) = true
      · have hp : 0 < p.length := by
          simp only [Bool.and_eq_true, decide_eq_true_eq] at hm
          exact hm.2
        have hple : p.length ≤ (c :: cs).length := by
          simp only [Bool.and_eq_true, decide_eq_true_eq] at hm
          exact leadsWith_length p (c :: cs) hm.1
        rw [scanGo, if_pos hm]
        simp only [List.map_cons]
        simp only [orderedFrom, Bool.and_eq_true, decide_eq_true_eq]
        have hdlen : ((c :: cs).drop p.length).length = (c :: cs).length - p.length := by
          simp
        have hfuel : ((c :: cs).drop p.length).length ≤ fuel := by
          rw [hdlen]
          simp only [List.length_cons] at hl ⊢
          omega
        have htail := ih ((c :: cs).drop p.length) (i + p.length) hfuel
        rw [hdlen] at htail
        have heq : i + p.length + ((c :: cs).length - p.length) = i + (c :: cs).length := by
          omega
        rw [heq] at htail
        exact ⟨⟨Nat.le_refl i, by omega⟩, htail⟩
      · rw [scanGo, if_neg hm]
        have htail := ih cs (i + 1) (by simp only [List.length_cons] at hl; omega)
        have heq : i + 1 + cs.length = i + (c :: cs).length := by
          simp only [List.length_cons]
          omega
        rw [heq] at htail
        exact orderedFrom_mono _ _ i (i + 1) htail (by omega)

/-- Counterexample for C10: with the custom literal pattern `"-\nk"`,
which matches across the boundary between the opening front-matter
delimiter and the front-matter text, the whole-file scan finds a match
inside the front-matter region while the front-matter-only scan finds
none, so no match is dropped, the in-front-matter match is resolved and
replaced, and the written output's front-matter bytes differ from the
input's. -/
theorem c10_frontmatter_counterexample :
    (resolveFileModel "-\nk".data "\nk: v".data "---\nk: v\n---\nx".data
        (fun _ _ => ['Z'])).take 13
      ≠ ("---\nk: v\n---\nx".data).take 13 := by
  decide

/-- Claim C10 (amended): the resolver drops the first `k` matches of the
whole-file scan, where `k` is the number of matches the same pattern
finds in the front-matter text; provided every match remaining after
the drop starts at or beyond the end of the front-matter region — as
holds for the preset term-reference patterns, whose matches cannot span
the delimiter lines — the written output's front-matter bytes are
identical to the input's. -/
theorem c10_frontmatter_preserved :
    ∀ (p matter orig : List Char) (rfn : Nat → Nat → List Char) (fm : Nat),
      (∀ m ∈ (scanAll p orig).drop (scanAll p matter).length, fm ≤ m.1) →
      (resolveFileModel p matter orig rfn).take fm = orig.take fm := by
  intro p matter orig rfn fm halign
  have hord0 : orderedFrom orig.length 0
      ((scanAll p orig).map (fun m => (m.1, m.2, rfn m.1 m.2))) = true := by
    have h := scanGo_ordered p rfn orig.length orig 0 (Nat.le_refl _)
    simpa [scanAll] using h
  have hcomm : ((scanAll p orig).drop (scanAll p matter).length).map
        (fun m => (m.1, m.2, rfn m.1 m.2))
      = ((scanAll p orig).map (fun m => (m.1, m.2, rfn m.1 m.2))).drop
          (scanAll p matter).length :=
    List.map_drop _ _ _
  have hordD : orderedFrom orig.length 0
      (((scanAll p orig).drop (scanAll p matter).length).map
        (fun m => (m.1, m.2, rfn m.1 m.2))) = true := by
    rw [hcomm]
    exact orderedFrom_drop orig.length _ _ 0 hord0
  unfold resolveFileModel
  rw [interpretLoop_filter]
  have hordF := orderedFrom_filter orig.length (fun m => decide (0 < m.2.2.length)) _ 0 hordD
  have hrepF := allRepl_filter
    (((scanAll p orig).drop (scanAll p matter).length).map (fun m => (m.1, m.2, rfn m.1 m.2)))
  have hmain := interpretLoop_assemble
    ((((scanAll p orig).drop (scanAll p matter).length).map
        (fun m => (m.1, m.2, rfn m.1 m.2))).filter (fun m => decide (0 < m.2.2.length)))
    0 [] orig 0 0 (by simp) hordF hrepF
  simp only [List.drop_zero, List.nil_append] at hmain
  rw [hmain]
  refine assemble_take orig _ fm hordF ?_
  intro m hm
  have hm' := (List.mem_filter.mp hm).1
  obtain ⟨m0, hm0, hm0'⟩ := List.mem_map.mp hm'
  have : m.1 = m0.1 := by rw [← hm0']
  rw [this]
  exact halign m0 hm0

/-- Witness for C10 (amended): pattern `"v"` over a file whose front
matter contains one match; the drop removes exactly that match and the
13-byte front-matter region of the output equals the input's. -/
theorem c10_frontmatter_preserved_witness :
    (resolveFileModel "v".data "\nk: v".data "---\nk: v\n---\nv".data
        (fun _ _ => "R".data)).take 13
      = ("---\nk: v\n---\nv".data).take 13 :=
  c10_frontmatter_preserved "v".data "\nk: v".data "---\nk: v\n---\nv".data
    (fun _ _ => "R".data) 13 (by decide)

end Tev2

